import Mathlib

/-!
Verification of the Gap Safe Rules repository (sparse-group-lasso tools and the
l1-logistic-regression path driver) against its natural-language specification.

The numeric code of `sgl_tools.py` is embedded over `ℝ`, vectors as `List ℝ`.
Matrices are lists of columns (the code only ever slices columns).  The
coordinate-descent kernel `cd_logreg` (imported from `save_cd_logreg_fast`, not
part of the covered sources) is an external collaborator; the path driver
`logreg_path` is embedded parametrically in an arbitrary kernel of the contract
type `Kernel`, which receives exactly the mutable buffers and per-call scalars
the real kernel receives (the read-only dataset `X`, `y`, `norm_X2` and the
constants `max_iter`, `f`, `screening` are fixed over a path run and absorbed
into the kernel parameter).  A Python `raise` (IndexError) is modeled by
`Option`: `none` is an escaped exception.
-/

/-- Dot product of two equal-length vectors, `np.dot` on 1-d arrays. -/
def dotList (a b : List ℝ) : ℝ := (List.zipWith (fun u v => u * v) a b).sum

/-- `np.linalg.norm(x, ord=2)`. -/
noncomputable def norm2 (x : List ℝ) : ℝ := Real.sqrt ((x.map (fun v => v ^ 2)).sum)

/-- `np.linalg.norm(x, ord=np.inf)`: the largest absolute value (`0` on an empty vector). -/
def normInf (x : List ℝ) : ℝ := (x.map (fun v => |v|)).foldr max 0

/-- `sgl_tools.vect_ST(u, x)`: vectorial soft-thresholding at level `u`,
`np.sign(x) * np.maximum(np.abs(x) - u, 0.)`. -/
noncomputable def vect_ST (u : ℝ) (x : List ℝ) : List ℝ :=
  x.map (fun v => Real.sign v * max (|v| - u) 0)

/-- The `for k in range(n_inf - 1)` scan of `sgl_tools.epsilon_norm` (lines 90-105).
The list argument is the unprocessed suffix of the sorted magnitudes `zx`; `S`, `S2`
are the running sum and sum of squares of the processed prefix, `a` the previous
bound `a_k`, `k` the number of processed entries, `t` the target `R² / alpha²`.
Returns `(j0, S, S2)`; reaching the last element without a break is the `else`
clause `j0 = n_inf` that also folds this last element into `S` and `S2`. -/
noncomputable def scanLoop (t : ℝ) : List ℝ → ℝ → ℝ → ℝ → ℕ → ℕ × ℝ × ℝ
  | [], S, S2, _, k => (k, S, S2)
  | [z], S, S2, _, k => (k + 1, S + z, S2 + z ^ 2)
  | z :: z' :: l, S, S2, a, k =>
    let Sn := S + z
    let S2n := S2 + z ^ 2
    let b := S2n / z' ^ 2 - 2 * Sn / z' + ((k : ℝ) + 1)
    if a ≤ t ∧ t < b then (k + 1, Sn, S2n)
    else scanLoop t (z' :: l) Sn S2n b (k + 1)

/-- `sgl_tools.epsilon_norm(x, alpha, R)` (lines 61-115), translated branch by
branch: the `alpha == 0 and R != 0` closed form, the `R == 0` closed form, the
restriction to magnitudes above `alpha·norm_inf/(alpha+R)`, the descending sort
(`np.sort` then `[::-1]`), the `norm_inf == 0` and `n_inf == 1` shortcuts, the
prefix scan and the final quadratic-root selection. -/
noncomputable def epsilon_norm (x : List ℝ) (alpha R : ℝ) : ℝ :=
  if alpha = 0 ∧ R ≠ 0 then norm2 x / R
  else if R = 0 then normInf x / alpha
  else
    let norm_inf := normInf x
    let zx1 := (x.map (fun v => |v|)).filter (fun v => decide (alpha * norm_inf / (alpha + R) < v))
    let n_inf := zx1.length
    let zx := (zx1.insertionSort (fun u v => u ≤ v)).reverse
    if norm_inf = 0 then 0
    else if n_inf = 1 then zx.headI
    else
      let R2 := R ^ 2
      let alpha2 := alpha ^ 2
      let p := scanLoop (R2 / alpha2) zx 0 0 0 0
      let alpha_S := alpha * p.2.1
      let j0alpha2_R2 := (p.1 : ℝ) * alpha2 - R2
      if j0alpha2_R2 = 0 then p.2.2 / (2 * alpha_S)
      else (alpha_S - Real.sqrt (alpha_S ^ 2 - p.2.2 * j0alpha2_R2)) / j0alpha2_R2

/-- Maximum of a list of reals (`0` for empty); the value `np.argmax` scans for. -/
def listMax : List ℝ → ℝ
  | [] => 0
  | [v] => v
  | v :: w :: l => max v (listMax (w :: l))

/-- `np.argmax`: index of the first occurrence of the maximum. -/
noncomputable def argmaxIdx : List ℝ → ℕ
  | [] => 0
  | [_] => 0
  | v :: w :: l => if listMax (w :: l) ≤ v then 0 else argmaxIdx (w :: l) + 1

/-- The normalized per-group norms of `sgl_tools.build_lambdas` (lines 141-148):
`epsilon_norm(X_g^T y, 1 - eps_g, eps_g) / (tau + (1-tau)·omega_g)` with
`eps_g = (1-tau)·omega_g / (tau + (1-tau)·omega_g)`; `X` is a list of columns and
group `i` consists of the `size_groups[i]` columns starting at `g_start[i]`. -/
noncomputable def sgl_norms (X : List (List ℝ)) (y omega : List ℝ)
    (size_groups g_start : List ℕ) (tau : ℝ) : List ℝ :=
  (List.range size_groups.length).map (fun i =>
    let w := omega.getD i 0
    let e := (1 - tau) * w / (tau + (1 - tau) * w)
    epsilon_norm (((X.drop (g_start.getD i 0)).take (size_groups.getD i 0)).map
        (fun c => dotList c y))
      (1 - e) e / (tau + (1 - tau) * w))

/-- `sgl_tools.build_lambdas` (lines 135-155): the geometric grid
`lambda_max · 10^(-delta·i/(n_lambdas-1))`, `i = 0 … n_lambdas-1`, together with
`imax = np.argmax` of the normalized group norms. -/
noncomputable def build_lambdas (X : List (List ℝ)) (y omega : List ℝ)
    (size_groups g_start : List ℕ) (n_lambdas : ℕ) (delta tau : ℝ) : List ℝ × ℕ :=
  let nrm := sgl_norms X y omega size_groups g_start tau
  let imax := argmaxIdx nrm
  let lambda_max := nrm.getD imax 0
  ((List.range n_lambdas).map
      (fun i : ℕ => lambda_max * (10 : ℝ) ^ (-delta * (i : ℝ) / ((n_lambdas : ℝ) - 1))),
    imax)

/-- The groups described by `size_groups` and `g_start` partition the `p` features
into contiguous blocks: each start offset is the sum of the preceding sizes and the
sizes sum to `p`. -/
def isPartition (size_groups g_start : List ℕ) (p : ℕ) : Prop :=
  g_start.length = size_groups.length ∧
  (∀ i, i < size_groups.length → g_start.getD i 0 = ((size_groups.take i).sum)) ∧
  size_groups.sum = p

/-- The mutable buffers `logreg_path` hands to every `cd_logreg` call
(`save_logreg.py` lines 151-162): coefficient vector, gradient `XTR`, linear
predictor `Xbeta`, scratch buffers, working residual and the screening flags
`disabled_features` (`np.intc`, `1` = disabled). -/
structure CDState where
  beta : List ℝ
  XTR : List ℝ
  Xbeta : List ℝ
  Hessian : List ℝ
  Xbeta_next : List ℝ
  residual : List ℝ
  disabled_features : List ℤ

/-- The scalar outputs of one `cd_logreg` call, in the order the Python tuple
unpacks them: `(gap, p_obj, norm1_beta, dual_scale, n_iters, n_active_features)`
(counts are stored into float arrays, hence `ℝ`). -/
structure CDReturn where
  gap : ℝ
  p_obj : ℝ
  norm1_beta : ℝ
  dual_scale : ℝ
  n_iters : ℝ
  n_active_features : ℝ

/-- Contract of the external coordinate-descent kernel `cd_logreg`: it reads and
rewrites the buffers of a `CDState` and receives the per-call scalars
`p_obj`, `norm1_beta`, `lambda_`, `tol`, `dual_scale` and the flag `wstr_plus`
(`1` for the restricted warm-start solve, `0` for the definitive solve).  The
read-only `X`, `y`, `norm_X2` and the constants `max_iter`, `f`, `screening` are
fixed across a path run and are absorbed into the kernel value itself. -/
def Kernel : Type :=
  CDState → ℝ → ℝ → ℝ → ℝ → ℝ → ℕ → CDState × CDReturn

/-- The state the path loop of `logreg_path` threads across penalties: the kernel
buffers, the scalars `p_obj`, `norm1_beta`, `dual_scale`, the persistent flag
`run_active_warm_start` (line 101), and the preallocated result arrays `betas`
(`np.zeros((n_lambdas, n_features))`), `gaps` (`np.ones`), `n_iters` and
`n_active_features` (`np.zeros`). -/
structure PathState where
  st : CDState
  p_obj : ℝ
  norm1_beta : ℝ
  dual_scale : ℝ
  run_active_warm_start : Bool
  betas : List (List ℝ)
  gaps : List ℝ
  n_iters : List ℝ
  n_active_features : List ℝ

/-- Line 143: `(np.abs(XTR) < 2.*lambdas[t] - lambdas[t-1]).astype(np.intc)`. -/
noncomputable def strong_mask (XTR : List ℝ) (thr : ℝ) : List ℤ :=
  XTR.map (fun v => if |v| < thr then 1 else 0)

/-- The `disabled_features` vector in effect for the warm-start solve at a
non-first penalty: recomputed in full by `strong_mask` when
`strong_active_warm_start` is set (line 143), otherwise the vector left in place
by the previous kernel calls. -/
noncomputable def warm_disabled (strong_active_warm_start : Bool) (XTR : List ℝ)
    (disabled : List ℤ) (thr : ℝ) : List ℤ :=
  if strong_active_warm_start then strong_mask XTR thr else disabled

/-- One iteration `t` of the path loop of `logreg_path` (lines 138-164): the
optional warm-start phase (strong mask, gap-based run flag reading
`n_active_features[t]`, restricted `cd_logreg` call with `wstr_plus=1` that keeps
only `p_obj` and `norm1_beta` of the returned scalars), the definitive
`cd_logreg` call with `wstr_plus=0`, and the recording of `gaps[t]`,
`n_iters[t]`, `n_active_features[t]` and `betas[t, :] = beta_init.copy()`. -/
noncomputable def pathStep (K : Kernel) (lambdas : List ℝ) (tol : ℝ)
    (n_features : ℕ) (gap_active_warm_start strong_active_warm_start : Bool)
    (t : ℕ) (s : PathState) : PathState :=
  let s1 :=
    if (strong_active_warm_start = true ∨ gap_active_warm_start = true) ∧ t ≠ 0 then
      let d := warm_disabled strong_active_warm_start s.st.XTR s.st.disabled_features
        (2 * lambdas.getD t 0 - lambdas.getD (t - 1) 0)
      let run := if gap_active_warm_start = true then
          decide (s.n_active_features.getD t 0 < (n_features : ℝ))
        else s.run_active_warm_start
      let s' := { s with st := { s.st with disabled_features := d },
                         run_active_warm_start := run }
      if run = true then
        let kr := K s'.st s'.p_obj s'.norm1_beta (lambdas.getD t 0) tol s'.dual_scale 1
        { s' with st := kr.1, p_obj := kr.2.p_obj, norm1_beta := kr.2.norm1_beta }
      else s'
    else s
  let kr := K s1.st s1.p_obj s1.norm1_beta (lambdas.getD t 0) tol s1.dual_scale 0
  { s1 with st := kr.1, p_obj := kr.2.p_obj, norm1_beta := kr.2.norm1_beta,
            dual_scale := kr.2.dual_scale,
            gaps := s1.gaps.set t kr.2.gap,
            n_iters := s1.n_iters.set t kr.2.n_iters,
            n_active_features := s1.n_active_features.set t kr.2.n_active_features,
            betas := s1.betas.set t kr.1.beta }

/-- `for t in range(n)` over `pathStep`: `pathLoop … n s` has performed the
iterations `t = 0, …, n-1` starting from `s`. -/
noncomputable def pathLoop (K : Kernel) (lambdas : List ℝ) (tol : ℝ)
    (n_features : ℕ) (gap_active_warm_start strong_active_warm_start : Bool) :
    ℕ → PathState → PathState
  | 0, s => s
  | n + 1, s =>
    pathStep K lambdas tol n_features gap_active_warm_start strong_active_warm_start n
      (pathLoop K lambdas tol n_features gap_active_warm_start strong_active_warm_start n s)

/-- Matrix-vector product `np.dot(X, b)` for a column-list matrix with `n` rows. -/
def matVec (X : List (List ℝ)) (b : List ℝ) (n : ℕ) : List ℝ :=
  (List.range n).map (fun i => (List.zipWith (fun c bj => c.getD i 0 * bj) X b).sum)

/-- The initialization of the `logreg_path` iterate (lines 100-131): the
`beta_init is None` closed forms (`p_obj = n·log 2`, `residual = y - 0.5`) or the
recomputation from a supplied coefficient vector, the initial gradient
`XTR = X^T·residual`, `dual_scale = lambdas[0]` and the preallocated result
arrays. -/
noncomputable def path_init (X : List (List ℝ)) (y : List ℝ)
    (beta_init : Option (List ℝ)) (lam0 : ℝ) (n_lambdas : ℕ) : PathState :=
  let n_samples := y.length
  let n_features := X.length
  let betas0 : List (List ℝ) := List.replicate n_lambdas (List.replicate n_features 0)
  let gaps0 : List ℝ := List.replicate n_lambdas 1
  let cnt0 : List ℝ := List.replicate n_lambdas 0
  match beta_init with
  | none =>
    let residual := y.map (fun v => v - 1 / 2)
    let XTR := X.map (fun c => dotList c residual)
    { st := { beta := List.replicate n_features 0, XTR := XTR,
              Xbeta := List.replicate n_samples 0,
              Hessian := List.replicate n_features 0,
              Xbeta_next := List.replicate n_samples 0,
              residual := residual,
              disabled_features := List.replicate n_features 0 },
      p_obj := (n_samples : ℝ) * Real.log 2,
      norm1_beta := 0, dual_scale := lam0, run_active_warm_start := true,
      betas := betas0, gaps := gaps0, n_iters := cnt0, n_active_features := cnt0 }
  | some b =>
    let Xbeta := matVec X b n_samples
    let exp_Xbeta := Xbeta.map Real.exp
    let residual := List.zipWith (fun yi e => yi - e / (1 + e)) y exp_Xbeta
    let XTR := X.map (fun c => dotList c residual)
    { st := { beta := b, XTR := XTR, Xbeta := Xbeta,
              Hessian := List.replicate n_features 0,
              Xbeta_next := List.replicate n_samples 0,
              residual := residual,
              disabled_features := List.replicate n_features 0 },
      p_obj := -dotList y Xbeta + (exp_Xbeta.map (fun e => Real.log (1 + e))).sum
               + lam0 * (b.map (fun v => |v|)).sum,
      norm1_beta := (b.map (fun v => |v|)).sum,
      dual_scale := lam0, run_active_warm_start := true,
      betas := betas0, gaps := gaps0, n_iters := cnt0, n_active_features := cnt0 }

/-- `save_logreg.logreg_path` (lines 18-171) for an ndarray penalty grid: the
class-balanced tolerance (line 98), the iterate initialization, the path loop and
the returned `(betas, gaps, n_iters, n_active_features)`.  The access
`lambdas[0]` of line 125/128 raises `IndexError` on an empty grid: this is the
`none` result. -/
noncomputable def logreg_path (K : Kernel) (X : List (List ℝ)) (y : List ℝ)
    (lambdas : List ℝ) (eps : ℝ) (beta_init : Option (List ℝ))
    (gap_active_warm_start strong_active_warm_start : Bool) :
    Option (List (List ℝ) × List ℝ × List ℝ × List ℝ) :=
  let n_lambdas := lambdas.length
  let n_samples := y.length
  let n_features := X.length
  let n_1 := (y.filter (fun v => decide (v = 1))).length
  let n_0 := n_samples - n_1
  let tol := eps * (max 1 (min n_1 n_0) : ℕ) / (n_samples : ℝ)
  match lambdas.head? with
  | none => none
  | some lam0 =>
    let s0 := path_init X y beta_init lam0 n_lambdas
    let sfin := pathLoop K lambdas tol n_features
      gap_active_warm_start strong_active_warm_start n_lambdas s0
    some (sfin.betas, sfin.gaps, sfin.n_iters, sfin.n_active_features)

/-- The dynamic type of the `lambdas` argument of `logreg_path`: a float ndarray,
a Python scalar, or a Python list of several penalty values. -/
inductive NpValue where
  | ndarray (l : List ℝ)
  | pyscalar (v : ℝ)
  | pylist (l : List ℝ)

/-- Lines 90-91: `if type(lambdas) != np.ndarray: lambdas = np.array([lambdas])`.
A non-ndarray argument is wrapped whole as the single entry of a length-1 array
(for a Python list this entry is the entire list — a row vector). -/
def lambdas_wrap : NpValue → List (ℝ ⊕ List ℝ)
  | .ndarray l => l.map Sum.inl
  | .pyscalar v => [Sum.inl v]
  | .pylist l => [Sum.inr l]

/-- `n_lambdas = len(lambdas)` after the wrapping of lines 90-91: the number of
iterations the path loop `for t in range(n_lambdas)` performs. -/
def logreg_path_n_steps (lambdas : NpValue) : ℕ := (lambdas_wrap lambdas).length

/-- `Σ_{v ∈ x} (max(|v| - w, 0))²`: the squared soft-thresholded l2-norm
`‖vect_ST w x‖₂²` as a function of the threshold `w`. -/
noncomputable def phiS (x : List ℝ) (w : ℝ) : ℝ :=
  (x.map (fun v => max (|v| - w) 0 ^ 2)).sum

/-- `phiS` on a list of magnitudes (no inner absolute value). -/
noncomputable def phiAbs (l : List ℝ) (w : ℝ) : ℝ :=
  (l.map (fun v => max (v - w) 0 ^ 2)).sum

/-- `Σ_{v ∈ l} (v - w)² - t·w²`: the quadratic the scan of `epsilon_norm`
compares against the target `t = R²/alpha²`; `b_k - t` has the sign of
`Gfun (prefix) t zx[k+1]`. -/
noncomputable def Gfun (l : List ℝ) (t w : ℝ) : ℝ :=
  (l.map (fun v => (v - w) ^ 2)).sum - t * w ^ 2

/-- A kernel that changes nothing and reports zeros: the simplest inhabitant of
the `cd_logreg` contract, used to instantiate driver-level counterexamples. -/
def kernelId : Kernel := fun st _ _ _ _ _ _ => (st, ⟨0, 0, 0, 0, 0, 0⟩)

/-- A kernel that appends the received `wstr_plus` flag to the coefficient buffer
and always reports one active feature: its call trace is readable off the
returned coefficient rows, which observes whether the restricted warm-start
solve was run. -/
def kernelTrace : Kernel :=
  fun st _ _ _ _ _ wstr => ({ st with beta := st.beta ++ [(wstr : ℝ)] }, ⟨0, 0, 0, 0, 0, 1⟩)

/-- Numpy float true division: dividing by zero never raises but yields a
non-real float (`inf`, or `nan` for `0.0/0.0`, with a RuntimeWarning); `none` is
that non-real result, `some` an ordinary real quotient. -/
noncomputable def np_true_div (a b : ℝ) : Option ℝ :=
  if b = 0 then none else some (a / b)

/-- The early-return branches of `epsilon_norm` (lines 69-73) with the numpy
float division modeled faithfully by `np_true_div`; every later branch is
guarded (`alpha ≠ 0`, `R ≠ 0`) and agrees with the total model
`epsilon_norm`. -/
noncomputable def epsilon_norm_fp (x : List ℝ) (alpha R : ℝ) : Option ℝ :=
  if alpha = 0 ∧ R ≠ 0 then np_true_div (norm2 x) R
  else if R = 0 then np_true_div (normInf x) alpha
  else some (epsilon_norm x alpha R)

lemma le_foldr_max (l : List ℝ) (a : ℝ) : a ≤ l.foldr max a := by
  induction l with
  | nil => exact le_rfl
  | cons v l ih => exact le_trans ih (le_max_right v (l.foldr max a))

lemma mem_le_foldr_max {l : List ℝ} {v : ℝ} (a : ℝ) (hv : v ∈ l) : v ≤ l.foldr max a := by
  induction l with
  | nil => cases hv
  | cons w l ih =>
    rcases List.mem_cons.mp hv with h | h
    · exact h ▸ le_max_left w (l.foldr max a)
    · exact le_trans (ih h) (le_max_right w (l.foldr max a))

lemma foldr_max_eq_or_mem (l : List ℝ) (a : ℝ) : l.foldr max a = a ∨ l.foldr max a ∈ l := by
  induction l with
  | nil => exact Or.inl rfl
  | cons v l ih =>
    rcases le_total v (l.foldr max a) with h | h
    · simp only [List.foldr_cons, max_eq_right h]
      exact ih.imp id (List.mem_cons_of_mem v)
    · simp only [List.foldr_cons, max_eq_left h]
      exact Or.inr (List.mem_cons_self v l)

lemma normInf_nonneg (x : List ℝ) : 0 ≤ normInf x := le_foldr_max _ 0

lemma le_normInf {x : List ℝ} {v : ℝ} (hv : v ∈ x.map (fun u => |u|)) : v ≤ normInf x :=
  mem_le_foldr_max 0 hv

lemma normInf_mem {x : List ℝ} (h : normInf x ≠ 0) : normInf x ∈ x.map (fun u => |u|) := by
  rcases foldr_max_eq_or_mem (x.map (fun u => |u|)) 0 with h' | h'
  · exact absurd h' h
  · exact h'

lemma sum_sq_nonneg (l : List ℝ) : 0 ≤ (l.map (fun v => v ^ 2)).sum :=
  List.sum_nonneg (by
    intro v hv
    rcases List.mem_map.mp hv with ⟨u, _, rfl⟩
    positivity)

lemma sum_pos_of_pos {l : List ℝ} (h : ∀ v ∈ l, 0 < v) (hl : l ≠ []) : 0 < l.sum := by
  induction l with
  | nil => exact absurd rfl hl
  | cons v l ih =>
    rcases List.eq_nil_or_concat l with h' | h'
    · subst h'; simpa using h v (List.mem_cons_self v [])
    · have hv := h v (List.mem_cons_self v l)
      have hpos : 0 < l.sum := by
        apply ih (fun u hu => h u (List.mem_cons_of_mem v hu))
        rcases h' with ⟨l', a, rfl⟩; simp
      simpa [List.sum_cons] using add_pos hv hpos

lemma normInf_pos_of_norm2_pos {x : List ℝ} (h : 0 < norm2 x) : 0 < normInf x := by
  by_contra hc
  push_neg at hc
  have hS : 0 < (x.map (fun v => v ^ 2)).sum := Real.sqrt_pos.mp h
  have hz : ∀ v ∈ x, v = 0 := by
    intro v hv
    have : |v| ≤ normInf x := le_normInf (List.mem_map.mpr ⟨v, hv, rfl⟩)
    have : |v| ≤ 0 := le_trans this hc
    exact abs_nonpos_iff.mp this
  have : (x.map (fun v => v ^ 2)).sum = 0 := by
    apply List.sum_eq_zero
    intro v hv
    rcases List.mem_map.mp hv with ⟨u, hu, rfl⟩
    rw [hz u hu]; ring
  exact absurd this (ne_of_gt hS)

lemma phiS_eq_phiAbs (x : List ℝ) (w : ℝ) : phiS x w = phiAbs (x.map (fun v => |v|)) w := by
  simp only [phiS, phiAbs, List.map_map]
  rfl

lemma phiAbs_nonneg (l : List ℝ) (w : ℝ) : 0 ≤ phiAbs l w :=
  List.sum_nonneg (by
    intro v hv
    rcases List.mem_map.mp hv with ⟨u, _, rfl⟩
    positivity)

lemma phiAbs_append (l1 l2 : List ℝ) (w : ℝ) :
    phiAbs (l1 ++ l2) w = phiAbs l1 w + phiAbs l2 w := by
  simp [phiAbs]

lemma phiAbs_perm {l1 l2 : List ℝ} (h : l1.Perm l2) (w : ℝ) : phiAbs l1 w = phiAbs l2 w :=
  List.Perm.sum_eq (List.Perm.map _ h)

lemma phiAbs_eq_zero {l : List ℝ} {w : ℝ} (h : ∀ v ∈ l, v ≤ w) : phiAbs l w = 0 := by
  apply List.sum_eq_zero
  intro v hv
  rcases List.mem_map.mp hv with ⟨u, hu, rfl⟩
  have : max (u - w) 0 = 0 := max_eq_right (by linarith [h u hu])
  rw [this]; ring

lemma phiAbs_of_ge {l : List ℝ} {w : ℝ} (h : ∀ v ∈ l, w ≤ v) :
    phiAbs l w = (l.map (fun v => (v - w) ^ 2)).sum := by
  unfold phiAbs
  congr 1
  apply List.map_congr_left
  intro v hv
  have : max (v - w) 0 = v - w := max_eq_left (by linarith [h v hv])
  rw [this]

lemma phiAbs_anti {l : List ℝ} {w1 w2 : ℝ} (h : w1 ≤ w2) : phiAbs l w2 ≤ phiAbs l w1 := by
  unfold phiAbs
  apply List.sum_le_sum
  intro v _
  have h1 : max (v - w2) 0 ≤ max (v - w1) 0 := max_le_max (by linarith) le_rfl
  have h2 : 0 ≤ max (v - w2) 0 := le_max_right _ _
  exact pow_le_pow_left₀ h2 h1 2

lemma phiS_anti {x : List ℝ} {w1 w2 : ℝ} (h : w1 ≤ w2) : phiS x w2 ≤ phiS x w1 := by
  rw [phiS_eq_phiAbs, phiS_eq_phiAbs]
  exact phiAbs_anti h

lemma phiAbs_filter_split (l : List ℝ) (w : ℝ) (p : ℝ → Bool) :
    phiAbs l w = phiAbs (l.filter p) w + phiAbs (l.filter (fun v => !(p v))) w := by
  rw [← phiAbs_append, phiAbs_perm (List.filter_append_perm p l) w]

lemma sum_sub_sq (l : List ℝ) (w : ℝ) :
    (l.map (fun v => (v - w) ^ 2)).sum
      = (l.map (fun v => v ^ 2)).sum - 2 * w * l.sum + (l.length : ℝ) * w ^ 2 := by
  induction l with
  | nil => simp
  | cons v l ih =>
    simp only [List.map_cons, List.sum_cons, ih, List.length_cons]
    push_cast
    ring

lemma sorted_desc_head {v : ℝ} {l : List ℝ} (h : (v :: l).Sorted (fun u w => w ≤ u)) :
    ∀ u ∈ v :: l, u ≤ v := by
  intro u hu
  rcases List.mem_cons.mp hu with rfl | hu'
  · exact le_rfl
  · exact List.rel_of_sorted_cons h u hu'

lemma getLast?_mem_list : ∀ {l : List ℝ} {a : ℝ}, l.getLast? = some a → a ∈ l := by
  intro l
  induction l with
  | nil => intro a h; cases h
  | cons v tail ih =>
    intro a h
    cases tail with
    | nil =>
      simp only [List.getLast?_singleton, Option.some.injEq] at h
      exact h ▸ List.mem_cons_self v []
    | cons w tl =>
      rw [List.getLast?_cons_cons] at h
      exact List.mem_cons_of_mem v (ih h)

lemma sorted_desc_last : ∀ {l : List ℝ}, l.Sorted (fun u w => w ≤ u) →
    ∀ {zl : ℝ}, l.getLast? = some zl → ∀ v ∈ l, zl ≤ v := by
  intro l
  induction l with
  | nil => intro _ zl h; cases h
  | cons v tail ih =>
    intro h zl hlast u hu
    cases tail with
    | nil =>
      simp only [List.getLast?_singleton, Option.some.injEq] at hlast
      rcases List.mem_cons.mp hu with rfl | hu'
      · exact hlast ▸ le_rfl
      · cases hu'
    | cons w tl =>
      rw [List.getLast?_cons_cons] at hlast
      rcases List.mem_cons.mp hu with rfl | hu'
      · exact le_trans (ih h.of_cons hlast w (List.mem_cons_self w tl))
          (List.rel_of_sorted_cons h w (List.mem_cons_self w tl))
      · exact ih h.of_cons hlast u hu'

lemma scanLoop_single (t z S S2 a : ℝ) (k : ℕ) :
    scanLoop t [z] S S2 a k = (k + 1, S + z, S2 + z ^ 2) := rfl

lemma scanLoop_pair (t z z' S S2 a : ℝ) (l : List ℝ) (k : ℕ) :
    scanLoop t (z :: z' :: l) S S2 a k =
      if a ≤ t ∧ t < (S2 + z ^ 2) / z' ^ 2 - 2 * (S + z) / z' + ((k : ℝ) + 1) then
        (k + 1, S + z, S2 + z ^ 2)
      else scanLoop t (z' :: l) (S + z) (S2 + z ^ 2)
        ((S2 + z ^ 2) / z' ^ 2 - 2 * (S + z) / z' + ((k : ℝ) + 1)) (k + 1) := rfl

lemma Gfun_concat_self (pre : List ℝ) (t z : ℝ) : Gfun (pre ++ [z]) t z = Gfun pre t z := by
  simp [Gfun]

lemma Gfun_concat_eval (pre : List ℝ) (t z z' : ℝ) (hz' : z' ≠ 0) :
    Gfun (pre ++ [z]) t z' =
      (((pre.map (fun v => v ^ 2)).sum + z ^ 2) / z' ^ 2
        - 2 * (pre.sum + z) / z' + ((pre.length : ℝ) + 1) - t) * z' ^ 2 := by
  unfold Gfun
  rw [sum_sub_sq]
  field_simp
  ring

lemma scanLoop_spec (t : ℝ) :
    ∀ (l : List ℝ), l ≠ [] → ∀ (pre : List ℝ) (a : ℝ), (∀ v ∈ l, 0 < v) → a ≤ t →
      Gfun pre t l.headI ≤ 0 →
      ∃ l1 l2 zl,
        l = l1 ++ l2 ∧ l1 ≠ [] ∧ l1.getLast? = some zl ∧
        scanLoop t l pre.sum ((pre.map (fun v => v ^ 2)).sum) a pre.length
          = (pre.length + l1.length, (pre ++ l1).sum, ((pre ++ l1).map (fun v => v ^ 2)).sum) ∧
        Gfun (pre ++ l1) t zl ≤ 0 ∧
        (l2 = [] ∨ 0 < Gfun (pre ++ l1) t l2.headI) := by
  intro l
  induction l with
  | nil => intro h; exact absurd rfl h
  | cons z tail ih =>
    intro _ pre a hpos ha hG
    simp only [List.headI_cons] at hG
    cases tail with
    | nil =>
      refine ⟨[z], [], z, by simp, by simp, rfl, ?_, ?_, Or.inl rfl⟩
      · rw [scanLoop_single]
        simp
      · rw [Gfun_concat_self]
        exact hG
    | cons z' l' =>
      have hz' : (0 : ℝ) < z' := hpos z' (by simp)
      have hGb : Gfun (pre ++ [z]) t z' =
          (((pre.map (fun v => v ^ 2)).sum + z ^ 2) / z' ^ 2
            - 2 * (pre.sum + z) / z' + ((pre.length : ℝ) + 1) - t) * z' ^ 2 :=
        Gfun_concat_eval pre t z z' (ne_of_gt hz')
      rw [scanLoop_pair]
      by_cases hbr : a ≤ t ∧
          t < ((pre.map (fun v => v ^ 2)).sum + z ^ 2) / z' ^ 2
            - 2 * (pre.sum + z) / z' + ((pre.length : ℝ) + 1)
      · rw [if_pos hbr]
        refine ⟨[z], z' :: l', z, by simp, by simp, rfl, by simp, ?_, Or.inr ?_⟩
        · rw [Gfun_concat_self]
          exact hG
        · simp only [List.headI_cons]
          rw [hGb]
          have : (0 : ℝ) <
              ((pre.map (fun v => v ^ 2)).sum + z ^ 2) / z' ^ 2
                - 2 * (pre.sum + z) / z' + ((pre.length : ℝ) + 1) - t := by
            linarith [hbr.2]
          positivity
      · rw [if_neg hbr]
        have hble : ((pre.map (fun v => v ^ 2)).sum + z ^ 2) / z' ^ 2
            - 2 * (pre.sum + z) / z' + ((pre.length : ℝ) + 1) ≤ t := by
          by_contra hcon
          push_neg at hcon
          exact hbr ⟨ha, hcon⟩
        have hG' : Gfun (pre ++ [z]) t z' ≤ 0 := by
          rw [hGb]
          have h1 : ((pre.map (fun v => v ^ 2)).sum + z ^ 2) / z' ^ 2
              - 2 * (pre.sum + z) / z' + ((pre.length : ℝ) + 1) - t ≤ 0 := by linarith
          have h2 : (0 : ℝ) ≤ z' ^ 2 := sq_nonneg z'
          nlinarith
        have hrec := ih (by simp) (pre ++ [z])
          (((pre.map (fun v => v ^ 2)).sum + z ^ 2) / z' ^ 2
            - 2 * (pre.sum + z) / z' + ((pre.length : ℝ) + 1))
          (fun v hv => hpos v (List.mem_cons_of_mem z hv)) hble (by
            simpa only [List.headI_cons] using hG')
        rw [List.sum_append, List.map_append, List.sum_append] at hrec
        simp only [List.sum_cons, List.sum_nil, add_zero, List.map_cons, List.map_nil,
          List.length_append, List.length_singleton] at hrec
        obtain ⟨l1', l2, zl, hsplit, hne, hlast, heq, hGl, hGr⟩ := hrec
        refine ⟨z :: l1', l2, zl, by rw [hsplit]; rfl, by simp, ?_, ?_, ?_, ?_⟩
        · cases l1' with
          | nil => exact absurd rfl hne
          | cons w tl => rw [List.getLast?_cons_cons]; exact hlast
        · rw [heq]
          have hassoc : (pre ++ [z]) ++ l1' = pre ++ (z :: l1') := by
            rw [List.append_assoc]; rfl
          rw [hassoc]
          have hlen : pre.length + 1 + l1'.length = pre.length + (z :: l1').length := by
            simp; omega
          rw [hlen]
        · have hassoc : (pre ++ [z]) ++ l1' = pre ++ (z :: l1') := by
            rw [List.append_assoc]; rfl
          rw [← hassoc]
          exact hGl
        · have hassoc : (pre ++ [z]) ++ l1' = pre ++ (z :: l1') := by
            rw [List.append_assoc]; rfl
          rw [← hassoc]
          exact hGr

lemma quadRoot (D c S2 L Rt r : ℝ) (hc : 0 < c) (hS2 : 0 < S2) (hLR : L ≤ Rt)
    (hpL : 0 < D * L ^ 2 - 2 * c * L + S2) (hpR : D * Rt ^ 2 - 2 * c * Rt + S2 ≤ 0)
    (hr : r = if D = 0 then S2 / (2 * c) else (c - Real.sqrt (c ^ 2 - S2 * D)) / D) :
    D * r ^ 2 - 2 * c * r + S2 = 0 ∧ L < r ∧ r ≤ Rt := by
  by_cases hD : D = 0
  · subst hD
    rw [if_pos rfl] at hr
    subst hr
    have h2c : (0 : ℝ) < 2 * c := by linarith
    refine ⟨by field_simp, ?_, ?_⟩
    · rw [lt_div_iff₀ h2c]
      nlinarith
    · rw [div_le_iff₀ h2c]
      nlinarith
  · rw [if_neg hD] at hr
    have hdel : 0 ≤ c ^ 2 - S2 * D := by
      rcases lt_or_gt_of_ne hD with hneg | hpos
      · nlinarith
      · nlinarith [sq_nonneg (c - D * Rt)]
    set s := Real.sqrt (c ^ 2 - S2 * D) with hsdef
    have hs : s ^ 2 = c ^ 2 - S2 * D := Real.sq_sqrt hdel
    have hs0 : 0 ≤ s := Real.sqrt_nonneg _
    have hcs : c ^ 2 - s ^ 2 = S2 * D := by rw [hs]; ring
    have hDr : D * r = c - s := by rw [hr]; field_simp
    have hroot : D * r ^ 2 - 2 * c * r + S2 = 0 := by
      have hmul : D * (D * r ^ 2 - 2 * c * r + S2) = (D * r) ^ 2 - 2 * c * (D * r) + S2 * D := by
        ring
      have hval : (D * r) ^ 2 - 2 * c * (D * r) + S2 * D = 0 := by
        rw [hDr, ← hcs]; ring
      have := hmul.trans hval
      exact (mul_eq_zero.mp this).resolve_left hD
    have hfactL : D * (D * L ^ 2 - 2 * c * L + S2)
        = (D * L - (c - s)) * (D * L - (c + s)) := by
      have : (D * L - (c - s)) * (D * L - (c + s))
          = D ^ 2 * L ^ 2 - 2 * c * D * L + (c ^ 2 - s ^ 2) := by ring
      rw [this, hcs]; ring
    have hfactR : D * (D * Rt ^ 2 - 2 * c * Rt + S2)
        = (D * Rt - (c - s)) * (D * Rt - (c + s)) := by
      have : (D * Rt - (c - s)) * (D * Rt - (c + s))
          = D ^ 2 * Rt ^ 2 - 2 * c * D * Rt + (c ^ 2 - s ^ 2) := by ring
      rw [this, hcs]; ring
    refine ⟨hroot, ?_, ?_⟩
    · -- L < r
      rcases lt_or_gt_of_ne hD with hneg | hpos
      · -- D < 0: D·psi(L) < 0, the factors differ by 2s ≥ 0, so D·L - (c - s) > 0
        have hprod : (D * L - (c - s)) * (D * L - (c + s)) < 0 := by
          rw [← hfactL]
          exact mul_neg_of_neg_of_pos hneg hpL
        have hA : 0 < D * L - (c - s) := by nlinarith
        rw [hr, lt_div_iff_of_neg hneg]
        linarith
      · -- D > 0: both factors of D·psi(L) > 0 share a sign; the positive sign
        -- contradicts psi(Rt) ≤ 0, so D·L - (c - s) < 0
        have hprod : 0 < (D * L - (c - s)) * (D * L - (c + s)) := by
          rw [← hfactL]
          exact mul_pos hpos hpL
        have hprodR : (D * Rt - (c - s)) * (D * Rt - (c + s)) ≤ 0 := by
          rw [← hfactR]
          exact mul_nonpos_of_nonneg_of_nonpos (le_of_lt hpos) hpR |>.trans_eq rfl
        have hB2 : D * Rt - (c + s) ≤ 0 := by nlinarith
        have hA : D * L - (c - s) < 0 := by nlinarith [mul_le_mul_of_nonneg_left hLR (le_of_lt hpos)]
        rw [hr, lt_div_iff₀ hpos]
        linarith
    · -- r ≤ Rt
      rcases lt_or_gt_of_ne hD with hneg | hpos
      · have hprodR : 0 ≤ (D * Rt - (c - s)) * (D * Rt - (c + s)) := by
          rw [← hfactR]
          nlinarith
        have hprod : (D * L - (c - s)) * (D * L - (c + s)) < 0 := by
          rw [← hfactL]
          exact mul_neg_of_neg_of_pos hneg hpL
        have hB : D * L - (c + s) < 0 := by nlinarith
        have hA2 : D * Rt - (c - s) ≤ 0 := by
          by_contra hcon
          push_neg at hcon
          have hB2 : 0 ≤ D * Rt - (c + s) := by nlinarith
          have : D * L ≥ D * Rt := by nlinarith [mul_le_mul_of_nonpos_left hLR (le_of_lt hneg)]
          linarith
        rw [hr, div_le_iff_of_neg hneg]
        linarith
      · have hprodR : (D * Rt - (c - s)) * (D * Rt - (c + s)) ≤ 0 := by
          rw [← hfactR]
          exact mul_nonpos_of_nonneg_of_nonpos (le_of_lt hpos) hpR
        have hA2 : 0 ≤ D * Rt - (c - s) := by nlinarith
        rw [hr, div_le_iff₀ hpos]
        linarith

lemma phiS_nonneg (x : List ℝ) (w : ℝ) : 0 ≤ phiS x w := by
  rw [phiS_eq_phiAbs]
  exact phiAbs_nonneg _ _

lemma vect_ST_term (v u : ℝ) (hu : 0 ≤ u) :
    (Real.sign v * max (|v| - u) 0) ^ 2 = max (|v| - u) 0 ^ 2 := by
  rcases lt_trichotomy v 0 with h | h | h
  · rw [Real.sign_of_neg h]; ring
  · subst h
    rw [Real.sign_zero, abs_zero, zero_sub, max_eq_right (by linarith : -u ≤ (0 : ℝ))]
    ring
  · rw [Real.sign_of_pos h]; ring

lemma norm2_vect_ST (x : List ℝ) (u : ℝ) (hu : 0 ≤ u) :
    norm2 (vect_ST u x) = Real.sqrt (phiS x u) := by
  unfold norm2 vect_ST phiS
  rw [List.map_map]
  refine congrArg Real.sqrt (congrArg List.sum ?_)
  apply List.map_congr_left
  intro v _
  exact vect_ST_term v u hu

lemma norm2_ST_eq_iff (x : List ℝ) (u c : ℝ) (hu : 0 ≤ u) (hc : 0 ≤ c) :
    norm2 (vect_ST u x) = c ↔ phiS x u = c ^ 2 := by
  rw [norm2_vect_ST x u hu]
  constructor
  · intro h
    rw [← h, Real.sq_sqrt (phiS_nonneg x u)]
  · intro h
    rw [h, Real.sqrt_sq hc]

lemma phi_root_unique (x : List ℝ) (alpha R : ℝ) (h0 : 0 < alpha) (hR : 0 < R)
    {w z : ℝ} (hw : 0 ≤ w) (hz : 0 ≤ z)
    (hweq : phiS x (alpha * w) = (R * w) ^ 2) (hzeq : phiS x (alpha * z) = (R * z) ^ 2) :
    w = z := by
  rcases lt_trichotomy w z with h | h | h
  · exfalso
    have h1 : phiS x (alpha * z) ≤ phiS x (alpha * w) :=
      phiS_anti (by nlinarith)
    rw [hweq, hzeq] at h1
    have h2 : R * w < R * z := mul_lt_mul_of_pos_left h hR
    have h3 : (R * w) ^ 2 < (R * z) ^ 2 :=
      pow_lt_pow_left₀ h2 (mul_nonneg (le_of_lt hR) hw) (by norm_num)
    linarith
  · exact h
  · exfalso
    have h1 : phiS x (alpha * w) ≤ phiS x (alpha * z) :=
      phiS_anti (by nlinarith)
    rw [hweq, hzeq] at h1
    have h2 : R * z < R * w := mul_lt_mul_of_pos_left h hR
    have h3 : (R * z) ^ 2 < (R * w) ^ 2 :=
      pow_lt_pow_left₀ h2 (mul_nonneg (le_of_lt hR) hz) (by norm_num)
    linarith

lemma mem_filter_thr {x : List ℝ} {thr v : ℝ}
    (hv : v ∈ (x.map (fun u => |u|)).filter (fun u => decide (thr < u))) :
    thr < v ∧ v ∈ x.map (fun u => |u|) := by
  obtain ⟨hmem, hdec⟩ := List.mem_filter.mp hv
  exact ⟨of_decide_eq_true hdec, hmem⟩

lemma normInf_mem_filter {x : List ℝ} {alpha R : ℝ} (h0 : 0 < alpha) (hR : 0 < R)
    (hm : 0 < normInf x) :
    normInf x ∈ (x.map (fun u => |u|)).filter
      (fun u => decide (alpha * normInf x / (alpha + R) < u)) := by
  apply List.mem_filter.mpr
  refine ⟨normInf_mem (ne_of_gt hm), decide_eq_true ?_⟩
  rw [div_lt_iff₀ (by linarith : (0 : ℝ) < alpha + R)]
  nlinarith

lemma eps_root_core (x : List ℝ) (alpha R : ℝ) (h0 : 0 < alpha) (hR : 0 < R)
    (hm : 0 < normInf x)
    (h2 : 2 ≤ ((x.map (fun v => |v|)).filter
      (fun v => decide (alpha * normInf x / (alpha + R) < v))).length) :
    0 ≤ epsilon_norm x alpha R ∧
    phiS x (alpha * epsilon_norm x alpha R) = (R * epsilon_norm x alpha R) ^ 2 := by
  have haR : (0 : ℝ) < alpha + R := by linarith
  set m := normInf x with hmdef
  set thr := alpha * m / (alpha + R) with hthrdef
  set F := (x.map (fun v => |v|)).filter (fun v => decide (thr < v)) with hFdef
  set zs := (F.insertionSort (fun u v => u ≤ v)).reverse with hzsdef
  have hthr_pos : 0 < thr := by rw [hthrdef]; exact div_pos (mul_pos h0 hm) haR
  have hperm : zs.Perm F := (List.reverse_perm _).trans (List.perm_insertionSort _ F)
  have hsorted : zs.Sorted (fun u v => v ≤ u) := by
    rw [hzsdef, List.Sorted, List.pairwise_reverse]
    exact List.sorted_insertionSort _ F
  have hzs_len : zs.length = F.length := hperm.length_eq
  have hzs_gt : ∀ v ∈ zs, thr < v := fun v hv => (mem_filter_thr (hperm.mem_iff.mp hv)).1
  have hzs_pos : ∀ v ∈ zs, 0 < v := fun v hv => lt_trans hthr_pos (hzs_gt v hv)
  have hzs_ne : zs ≠ [] := by
    intro hnil
    rw [hnil] at hzs_len
    simp only [List.length_nil] at hzs_len
    omega
  have hG0 : Gfun [] (R ^ 2 / alpha ^ 2) zs.headI ≤ 0 := by
    unfold Gfun
    simp only [List.map_nil, List.sum_nil, zero_sub, neg_nonpos]
    positivity
  obtain ⟨l1, l2, zl, hsplit, hl1ne, hlast, heq, hGl, hGr⟩ :=
    scanLoop_spec (R ^ 2 / alpha ^ 2) zs hzs_ne [] 0 hzs_pos (by positivity) hG0
  simp only [List.sum_nil, List.map_nil, List.length_nil, List.nil_append, Nat.zero_add,
    zero_add] at heq
  have hl1_sub : ∀ v ∈ l1, v ∈ zs := fun v hv => hsplit ▸ List.mem_append_left l2 hv
  have hl2_sub : ∀ v ∈ l2, v ∈ zs := fun v hv => hsplit ▸ List.mem_append_right l1 hv
  have hS_pos : 0 < l1.sum := sum_pos_of_pos (fun v hv => hzs_pos v (hl1_sub v hv)) hl1ne
  have hS2_pos : 0 < (l1.map (fun v => v ^ 2)).sum := by
    apply sum_pos_of_pos
    · intro v hv
      rcases List.mem_map.mp hv with ⟨u, hu, rfl⟩
      have := hzs_pos u (hl1_sub u hu)
      positivity
    · intro hnil
      exact hl1ne (List.map_eq_nil_iff.mp hnil)
  have hzl_mem : zl ∈ l1 := getLast?_mem_list hlast
  have hzl_zs : zl ∈ zs := hl1_sub zl hzl_mem
  have hpair := List.pairwise_append.mp (hsplit ▸ hsorted)
  have hl1_sorted : l1.Sorted (fun u v => v ≤ u) := hpair.1
  have hl2_sorted : l2.Sorted (fun u v => v ≤ u) := hpair.2.1
  have hl12 : ∀ a ∈ l1, ∀ b ∈ l2, b ≤ a := hpair.2.2
  have hl1_ge_zl : ∀ v ∈ l1, zl ≤ v := sorted_desc_last hl1_sorted hlast
  have hc1 : ¬(alpha = 0 ∧ R ≠ 0) := fun h => absurd h.1 (ne_of_gt h0)
  have hc2 : ¬(R = 0) := ne_of_gt hR
  have hc3 : ¬(m = 0) := ne_of_gt hm
  have hc4 : ¬(F.length = 1) := by omega
  have hEN : epsilon_norm x alpha R =
      (if ((l1.length : ℝ) * alpha ^ 2 - R ^ 2) = 0 then
        (l1.map (fun v => v ^ 2)).sum / (2 * (alpha * l1.sum))
      else (alpha * l1.sum - Real.sqrt ((alpha * l1.sum) ^ 2
          - (l1.map (fun v => v ^ 2)).sum * ((l1.length : ℝ) * alpha ^ 2 - R ^ 2)))
        / ((l1.length : ℝ) * alpha ^ 2 - R ^ 2)) := by
    simp only [epsilon_norm]
    rw [← hmdef, ← hthrdef, ← hFdef, ← hzsdef]
    rw [if_neg hc1, if_neg hc2, if_neg hc3, if_neg hc4, heq]
  set Dq := (l1.length : ℝ) * alpha ^ 2 - R ^ 2 with hDq
  set cq := alpha * l1.sum with hcq
  set S2q := (l1.map (fun v => v ^ 2)).sum with hS2q
  have hcq_pos : 0 < cq := mul_pos h0 hS_pos
  have hpsiG : ∀ z : ℝ, Dq * z ^ 2 - 2 * cq * z + S2q
      = Gfun l1 (R ^ 2 / alpha ^ 2) (alpha * z) := by
    intro z
    rw [hDq, hcq, hS2q]
    unfold Gfun
    rw [sum_sub_sq]
    field_simp
    ring
  obtain ⟨L, hLpos, hthrL, hl2le, hpsiL, hLRt⟩ :
      ∃ L : ℝ, 0 < L ∧ thr ≤ alpha * L ∧ (∀ v ∈ l2, v ≤ alpha * L) ∧
        (0 < Dq * L ^ 2 - 2 * cq * L + S2q) ∧ L ≤ zl / alpha := by
    cases l2 with
    | nil =>
      have hl1zs : l1 = zs := by rw [hsplit, List.append_nil]
      have halphaL : alpha * (m / (alpha + R)) = thr := by
        rw [hthrdef, mul_div_assoc]
      refine ⟨m / (alpha + R), div_pos hm haR, ?_, ?_, ?_, ?_⟩
      · rw [halphaL]
      · intro v hv; cases hv
      · rw [hpsiG, halphaL, hl1zs]
        -- 0 < Gfun zs t thr: the top entry contributes exactly t·thr², the
        -- remaining at least one entry contributes strictly positively
        have hmF : m ∈ zs := hperm.mem_iff.mpr (normInf_mem_filter h0 hR hm)
        obtain ⟨zs', hperm'⟩ : ∃ zs', zs.Perm (m :: zs') :=
          ⟨zs.erase m, List.perm_cons_erase hmF⟩
        have hlen' : zs'.length + 1 = zs.length := by
          have := hperm'.length_eq
          simpa using this.symm
        have hmem' : ∀ v ∈ zs', v ∈ zs := fun v hv =>
          hperm'.mem_iff.mpr (List.mem_cons_of_mem m hv)
        unfold Gfun
        rw [List.Perm.sum_eq (hperm'.map (fun v => (v - thr) ^ 2))]
        simp only [List.map_cons, List.sum_cons]
        have hmthr : (m - thr) ^ 2 = R ^ 2 / alpha ^ 2 * thr ^ 2 := by
          rw [hthrdef]
          field_simp
          ring
        have hrest : 0 < (zs'.map (fun v => (v - thr) ^ 2)).sum := by
          apply sum_pos_of_pos
          · intro v hv
            rcases List.mem_map.mp hv with ⟨u, hu, rfl⟩
            have := hzs_gt u (hmem' u hu)
            have hne : u - thr ≠ 0 := by linarith
            positivity
          · intro hnil
            rw [List.map_eq_nil_iff] at hnil
            rw [hnil] at hlen'
            simp at hlen'
            omega
        linarith [hmthr]
      · have h1 : thr < zl := hzs_gt zl hzl_zs
        have heq2 : m / (alpha + R) = thr / alpha := by
          rw [hthrdef]
          field_simp
          ring
        rw [heq2]
        exact div_le_div_of_nonneg_right (le_of_lt h1) h0.le
    | cons z2 l2' =>
      have hGr2 : 0 < Gfun l1 (R ^ 2 / alpha ^ 2) z2 := by
        rcases hGr with h | h
        · cases h
        · simpa using h
      have hz2zs : z2 ∈ zs := hl2_sub z2 (List.mem_cons_self z2 l2')
      have hz2thr : thr < z2 := hzs_gt z2 hz2zs
      have halphaL : alpha * (z2 / alpha) = z2 := by field_simp
      refine ⟨z2 / alpha, div_pos (lt_trans hthr_pos hz2thr) h0, ?_, ?_, ?_, ?_⟩
      · rw [halphaL]; exact le_of_lt hz2thr
      · rw [halphaL]
        exact sorted_desc_head hl2_sorted
      · rw [hpsiG, halphaL]
        exact hGr2
      · have hle : z2 ≤ zl := hl12 zl hzl_mem z2 (List.mem_cons_self z2 l2')
        exact div_le_div_of_nonneg_right hle h0.le
  have hpsiRt : Dq * (zl / alpha) ^ 2 - 2 * cq * (zl / alpha) + S2q ≤ 0 := by
    have halphaRt : alpha * (zl / alpha) = zl := by field_simp
    rw [hpsiG, halphaRt]
    exact hGl
  obtain ⟨hroot, hLr, hrRt⟩ := quadRoot Dq cq S2q L (zl / alpha) (epsilon_norm x alpha R)
    hcq_pos hS2_pos hLRt hpsiL hpsiRt hEN
  have hr_pos : 0 < epsilon_norm x alpha R := lt_trans hLpos hLr
  refine ⟨le_of_lt hr_pos, ?_⟩
  have hLr_mul : alpha * L < alpha * epsilon_norm x alpha R := mul_lt_mul_of_pos_left hLr h0
  have hthr_r : thr < alpha * epsilon_norm x alpha R := lt_of_le_of_lt hthrL hLr_mul
  have hzl_r : alpha * epsilon_norm x alpha R ≤ zl := by
    calc alpha * epsilon_norm x alpha R = epsilon_norm x alpha R * alpha := mul_comm _ _
      _ ≤ zl := (le_div_iff₀ h0).mp hrRt
  rw [phiS_eq_phiAbs]
  rw [phiAbs_filter_split (x.map (fun v => |v|)) (alpha * epsilon_norm x alpha R)
    (fun v => decide (thr < v))]
  have hout : phiAbs ((x.map (fun v => |v|)).filter (fun v => !(decide (thr < v))))
      (alpha * epsilon_norm x alpha R) = 0 := by
    apply phiAbs_eq_zero
    intro v hv
    obtain ⟨hmem, hb⟩ := List.mem_filter.mp hv
    have hnv : ¬(thr < v) := by simpa using hb
    linarith [le_of_not_lt hnv]
  rw [hout, add_zero, ← hFdef, ← phiAbs_perm hperm, hsplit, phiAbs_append]
  have hl2zero : phiAbs l2 (alpha * epsilon_norm x alpha R) = 0 :=
    phiAbs_eq_zero (fun v hv => le_trans (hl2le v hv) (le_of_lt hLr_mul))
  rw [hl2zero, add_zero]
  rw [phiAbs_of_ge (fun v hv => le_trans hzl_r (hl1_ge_zl v hv))]
  have hsum2 : (l1.map (fun v => (v - alpha * epsilon_norm x alpha R) ^ 2)).sum
      = Gfun l1 (R ^ 2 / alpha ^ 2) (alpha * epsilon_norm x alpha R)
        + (R ^ 2 / alpha ^ 2) * (alpha * epsilon_norm x alpha R) ^ 2 := by
    unfold Gfun
    ring
  rw [hsum2, ← hpsiG (epsilon_norm x alpha R), hroot, zero_add]
  field_simp
  ring

lemma eps_root_single (x : List ℝ) (alpha R : ℝ) (h0 : 0 < alpha) (hR : 0 < R)
    (hsum1 : alpha + R = 1) (hm : 0 < normInf x)
    (h1 : ((x.map (fun v => |v|)).filter
      (fun v => decide (alpha * normInf x / (alpha + R) < v))).length = 1) :
    epsilon_norm x alpha R = normInf x ∧
    phiS x (alpha * epsilon_norm x alpha R) = (R * epsilon_norm x alpha R) ^ 2 := by
  have haR : (0 : ℝ) < alpha + R := by linarith
  set m := normInf x with hmdef
  set thr := alpha * m / (alpha + R) with hthrdef
  set F := (x.map (fun v => |v|)).filter (fun v => decide (thr < v)) with hFdef
  have hmF : m ∈ F := normInf_mem_filter h0 hR hm
  obtain ⟨w, hw⟩ := List.length_eq_one.mp h1
  have hwm : w = m := by
    rw [hw] at hmF
    rcases List.mem_cons.mp hmF with h | h
    · exact h.symm
    · cases h
  subst hwm
  have hc1 : ¬(alpha = 0 ∧ R ≠ 0) := fun h => absurd h.1 (ne_of_gt h0)
  have hc2 : ¬(R = 0) := ne_of_gt hR
  have hc3 : ¬(m = 0) := ne_of_gt hm
  have hEN : epsilon_norm x alpha R = m := by
    simp only [epsilon_norm]
    rw [← hmdef, ← hthrdef, ← hFdef]
    rw [if_neg hc1, if_neg hc2, if_neg hc3, if_pos h1, hw]
    simp [List.insertionSort, List.orderedInsert]
  refine ⟨hEN, ?_⟩
  rw [hEN]
  have hthr_eq : thr = alpha * m := by
    rw [hthrdef, hsum1, div_one]
  rw [phiS_eq_phiAbs,
    phiAbs_filter_split (x.map (fun v => |v|)) (alpha * m) (fun v => decide (thr < v))]
  have hout : phiAbs ((x.map (fun v => |v|)).filter (fun v => !(decide (thr < v))))
      (alpha * m) = 0 := by
    apply phiAbs_eq_zero
    intro v hv
    obtain ⟨hmem, hb⟩ := List.mem_filter.mp hv
    have hnv : ¬(thr < v) := by simpa using hb
    rw [hthr_eq] at hnv
    exact le_of_not_lt hnv
  rw [hout, add_zero, ← hFdef, hw]
  unfold phiAbs
  simp only [List.map_cons, List.map_nil, List.sum_cons, List.sum_nil, add_zero]
  have hmam : max (m - alpha * m) 0 = m - alpha * m := by
    apply max_eq_left
    nlinarith
  rw [hmam]
  have hRm : m - alpha * m = R * m := by nlinarith [hsum1]
  rw [hRm]

lemma eps_norm_eval_one : epsilon_norm [1] (1/2) (1/2) = 1 := by
  norm_num [epsilon_norm, normInf, List.filter, List.insertionSort, List.orderedInsert]

lemma norm2_single_one : norm2 [(1 : ℝ)] = 1 := by
  simp [norm2]

/-- C1 (amended): for `alpha ∈ (0,1)` and `R = 1 - alpha` (the regime
`alpha = 1 - eps`, `R = eps` in which the solver is invoked) with
`R < ‖x‖₂`, the value `z = epsilon_norm x alpha R` is non-negative and is the
unique non-negative root of `‖vect_ST (alpha·z) x‖₂ = R·z` — the equation the
code actually solves, with right-hand side `R·z`, not the `alpha·R` of the
claim. -/
theorem epsilon_norm_root_characterization (x : List ℝ) (alpha R : ℝ)
    (h0 : 0 < alpha) (h1 : alpha < 1) (hsum : alpha + R = 1) (hR2 : R < norm2 x) :
    0 ≤ epsilon_norm x alpha R ∧
    norm2 (vect_ST (alpha * epsilon_norm x alpha R) x) = R * epsilon_norm x alpha R ∧
    ∀ w, 0 ≤ w → norm2 (vect_ST (alpha * w) x) = R * w → w = epsilon_norm x alpha R := by
  have hR : 0 < R := by linarith
  have hnorm2pos : 0 < norm2 x := lt_trans hR hR2
  have hm : 0 < normInf x := normInf_pos_of_norm2_pos hnorm2pos
  have hkey : 0 ≤ epsilon_norm x alpha R ∧
      phiS x (alpha * epsilon_norm x alpha R) = (R * epsilon_norm x alpha R) ^ 2 := by
    have hmem := normInf_mem_filter h0 hR hm
    have hlen1 : 1 ≤ ((x.map (fun v => |v|)).filter
        (fun v => decide (alpha * normInf x / (alpha + R) < v))).length :=
      List.length_pos.mpr (List.ne_nil_of_mem hmem)
    rcases Nat.lt_or_ge ((x.map (fun v => |v|)).filter
        (fun v => decide (alpha * normInf x / (alpha + R) < v))).length 2 with hlt | hge
    · have h1len : ((x.map (fun v => |v|)).filter
          (fun v => decide (alpha * normInf x / (alpha + R) < v))).length = 1 := by omega
      obtain ⟨hEN, hphi⟩ := eps_root_single x alpha R h0 hR hsum hm h1len
      exact ⟨hEN ▸ hm.le, hphi⟩
    · exact eps_root_core x alpha R h0 hR hm hge
  obtain ⟨hz0, hphi⟩ := hkey
  refine ⟨hz0, ?_, ?_⟩
  · rw [norm2_ST_eq_iff x _ _ (mul_nonneg h0.le hz0)
      (mul_nonneg hR.le hz0)]
    exact hphi
  · intro w hw hweq
    apply phi_root_unique x alpha R h0 hR hw hz0 _ hphi
    rw [← norm2_ST_eq_iff x _ _ (mul_nonneg h0.le hw) (mul_nonneg hR.le hw)]
    exact hweq

/-- C1 witness: the amended characterization applied at the spec's own concrete
scenario `x = [4,3,2,1]`, `alpha = 1/2`, `R = 1/2`. -/
theorem epsilon_norm_root_characterization_witness :
    0 ≤ epsilon_norm [4, 3, 2, 1] (1/2) (1/2) ∧
    norm2 (vect_ST ((1/2) * epsilon_norm [4, 3, 2, 1] (1/2) (1/2)) [4, 3, 2, 1])
      = (1/2) * epsilon_norm [4, 3, 2, 1] (1/2) (1/2) ∧
    ∀ w, 0 ≤ w → norm2 (vect_ST ((1/2) * w) [4, 3, 2, 1]) = (1/2) * w →
      w = epsilon_norm [4, 3, 2, 1] (1/2) (1/2) :=
  epsilon_norm_root_characterization [4, 3, 2, 1] (1/2) (1/2) (by norm_num) (by norm_num)
    (by norm_num)
    (by
      rw [norm2]
      norm_num
      rw [show (30 : ℝ) = 16 + (9 + (4 + 1)) by norm_num] at *
      rw [Real.lt_sqrt (by norm_num)]
      norm_num)

/-- C1 counterexample: at `x = [1]`, `alpha = 1/2 ∈ (0,1)`, `R = 1/2 ∈ (0,‖x‖₂)`,
the returned `z = 1` does not satisfy the claimed equation
`‖vect_ST (alpha·z) x‖₂ = alpha·R`: the left side is `1/2`, the right `1/4`. -/
theorem epsilon_norm_claim_counterexample :
    (0 : ℝ) < 1/2 ∧ (1/2 : ℝ) < 1 ∧ (0 : ℝ) < 1/2 ∧ (1/2 : ℝ) < norm2 [1] ∧
    norm2 (vect_ST ((1/2) * epsilon_norm [1] (1/2) (1/2)) [1]) ≠ (1/2) * (1/2) := by
  refine ⟨by norm_num, by norm_num, by norm_num, ?_, ?_⟩
  · rw [norm2_single_one]; norm_num
  · rw [eps_norm_eval_one]
    have hst : vect_ST ((1/2) * 1) [1] = [1/2] := by
      simp [vect_ST, Real.sign_of_pos]
      norm_num
    rw [hst]
    have : norm2 [(1 : ℝ)/2] = 1/2 := by
      rw [norm2]
      norm_num
      rw [show ((4:ℝ)) = 2^2 by norm_num, Real.sqrt_sq (by norm_num)]
      norm_num
    rw [this]
    norm_num

/-- C5 counterexample: at `x = [0]`, `alpha = 0`, `R = 0` (so `‖x‖∞ = 0`), the
`R = 0` branch evaluates the unguarded float division `‖x‖∞ / alpha = 0.0/0.0`,
whose result is the non-real `nan` — the faithful model returns no real value,
in particular not the `0` the claim asserts. -/
theorem epsilon_norm_claim5_counterexample :
    normInf [(0 : ℝ)] = 0 ∧ epsilon_norm_fp [(0 : ℝ)] 0 0 = none ∧
    epsilon_norm_fp [(0 : ℝ)] 0 0 ≠ some 0 := by
  refine ⟨by simp [normInf], ?_, ?_⟩
  · simp [epsilon_norm_fp, np_true_div]
  · simp [epsilon_norm_fp, np_true_div]

/-- C5 (amended): with `R = 0` the solver returns `‖x‖∞ / alpha` for every
`alpha > 0` — both in the total model and in the faithful float-division model,
which produces a real quotient there; but for `alpha = 0`, `R = 0` the branch
divides by zero, and the result is the non-real float `nan`/`inf` (never an
exception, numpy only warns), not `0`. -/
theorem epsilon_norm_R_zero (x : List ℝ) :
    (∀ alpha : ℝ, 0 < alpha → epsilon_norm x alpha 0 = normInf x / alpha ∧
      epsilon_norm_fp x alpha 0 = some (normInf x / alpha)) ∧
    epsilon_norm_fp x 0 0 = none := by
  constructor
  · intro alpha ha
    constructor
    · simp only [epsilon_norm]
      rw [if_neg (fun h => h.2 rfl), if_pos trivial]
    · simp only [epsilon_norm_fp]
      rw [if_neg (fun h => h.2 rfl), if_pos trivial, np_true_div,
        if_neg (ne_of_gt ha)]
  · simp only [epsilon_norm_fp]
    rw [if_neg (fun h => h.2 rfl), if_pos trivial, np_true_div, if_pos rfl]

/-- C5 witness: the closed forms evaluated at `x = [2]`, `alpha = 1` and the
non-real outcome at the fully degenerate `x = [0]`, `alpha = 0`, `R = 0`. -/
theorem epsilon_norm_R_zero_witness :
    (epsilon_norm [2] 1 0 = normInf [2] / 1 ∧
      epsilon_norm_fp [2] 1 0 = some (normInf [2] / 1)) ∧
    epsilon_norm_fp [0] 0 0 = none :=
  ⟨(epsilon_norm_R_zero [2]).1 1 (by norm_num), (epsilon_norm_R_zero [0]).2⟩

/-- C6 (confirmed): when exactly one entry of `|x|` exceeds the threshold
`alpha·‖x‖∞/(alpha+R)` — the restricted subset of magnitudes is the singleton
`[v]` — `epsilon_norm` returns that magnitude `v` exactly. -/
theorem epsilon_norm_single_entry (x : List ℝ) (alpha R v : ℝ)
    (h0 : 0 < alpha) (hR : 0 < R)
    (hf : (x.map (fun u => |u|)).filter
      (fun u => decide (alpha * normInf x / (alpha + R) < u)) = [v]) :
    epsilon_norm x alpha R = v := by
  have hthr0 : 0 ≤ alpha * normInf x / (alpha + R) :=
    div_nonneg (mul_nonneg h0.le (normInf_nonneg x)) (by linarith)
  have hvmem : v ∈ (x.map (fun u => |u|)).filter
      (fun u => decide (alpha * normInf x / (alpha + R) < u)) := by
    rw [hf]; exact List.mem_cons_self v []
  obtain ⟨hthrv, hvx⟩ := mem_filter_thr hvmem
  have hm : 0 < normInf x :=
    lt_of_lt_of_le (lt_of_le_of_lt hthr0 hthrv) (le_normInf hvx)
  simp only [epsilon_norm]
  rw [if_neg (fun h => absurd h.1 (ne_of_gt h0)), if_neg (ne_of_gt hR),
    if_neg (ne_of_gt hm), hf]
  norm_num [List.insertionSort, List.orderedInsert]

/-- C6 witness: `x = [2,1]`, `alpha = R = 1`: only `2` exceeds the threshold
`1·2/2 = 1` and the solver returns `2`. -/
theorem epsilon_norm_single_entry_witness : epsilon_norm [2, 1] 1 1 = 2 :=
  epsilon_norm_single_entry [2, 1] 1 1 2 (by norm_num) (by norm_num)
    (by norm_num [normInf, List.filter])

lemma listMax_ge : ∀ (l : List ℝ), ∀ v ∈ l, v ≤ listMax l := by
  intro l
  induction l with
  | nil => intro v hv; cases hv
  | cons w tail ih =>
    cases tail with
    | nil =>
      intro v hv
      rcases List.mem_cons.mp hv with rfl | hv'
      · exact le_rfl
      · cases hv'
    | cons u tl =>
      intro v hv
      rcases List.mem_cons.mp hv with rfl | hv'
      · exact le_max_left _ _
      · exact le_trans (ih v hv') (le_max_right _ _)

lemma argmaxIdx_lt_length : ∀ (l : List ℝ), l ≠ [] → argmaxIdx l < l.length := by
  intro l
  induction l with
  | nil => intro h; exact absurd rfl h
  | cons w tail ih =>
    intro _
    cases tail with
    | nil => simp [argmaxIdx]
    | cons u tl =>
      rw [argmaxIdx]
      by_cases hle : listMax (u :: tl) ≤ w
      · rw [if_pos hle]; simp
      · rw [if_neg hle]
        have := ih (by simp)
        simpa using Nat.succ_lt_succ this

lemma argmaxIdx_getD : ∀ (l : List ℝ), l ≠ [] → l.getD (argmaxIdx l) 0 = listMax l := by
  intro l
  induction l with
  | nil => intro h; exact absurd rfl h
  | cons w tail ih =>
    intro _
    cases tail with
    | nil => simp [argmaxIdx, listMax]
    | cons u tl =>
      rw [argmaxIdx, listMax]
      by_cases hle : listMax (u :: tl) ≤ w
      · rw [if_pos hle]
        simp [max_eq_left hle]
      · rw [if_neg hle]
        push_neg at hle
        rw [max_eq_right (le_of_lt hle)]
        simpa using ih (by simp)

lemma getD_range_map (f : ℕ → ℝ) (n i : ℕ) (hi : i < n) :
    ((List.range n).map f).getD i 0 = f i := by
  simp [List.getD_eq_getElem?_getD, List.getElem?_map, List.getElem?_range, hi]

/-- C2 (amended): when the groups partition the features, there is at least one
group, `n_lambdas ≥ 2` (at `n_lambdas = 1` the exponent divides by
`n_lambdas - 1 = 0` and the program's grid entry is `nan`), `delta > 0` and the
recomputed maximal penalty is positive (the claim as stated fails when it is
`0`, e.g. for `y = 0`), `build_lambdas` returns a
sequence of length `n_lambdas`, strictly decreasing, whose entry `i` is
`lambda_max · 10^(-delta·i/(n_lambdas-1))`, whose first entry is `lambda_max` —
the maximum over groups of
`epsilon_norm(X_gᵀ·y, 1-eps_g, eps_g)/(tau+(1-tau)·omega_g)` (the entries of
`sgl_norms`) — together with the first index attaining that maximum. -/
theorem build_lambdas_spec (X : List (List ℝ)) (y omega : List ℝ)
    (size_groups g_start : List ℕ) (n_lambdas : ℕ) (delta tau : ℝ)
    (hpart : isPartition size_groups g_start X.length)
    (hg : size_groups ≠ [])
    (hn : 2 ≤ n_lambdas)
    (hdel : 0 < delta)
    (hmax : 0 < (sgl_norms X y omega size_groups g_start tau).getD
      (argmaxIdx (sgl_norms X y omega size_groups g_start tau)) 0) :
    (build_lambdas X y omega size_groups g_start n_lambdas delta tau).1.length = n_lambdas ∧
    (build_lambdas X y omega size_groups g_start n_lambdas delta tau).2
      = argmaxIdx (sgl_norms X y omega size_groups g_start tau) ∧
    (0 < n_lambdas →
      (build_lambdas X y omega size_groups g_start n_lambdas delta tau).1.getD 0 0
        = (sgl_norms X y omega size_groups g_start tau).getD
            (argmaxIdx (sgl_norms X y omega size_groups g_start tau)) 0) ∧
    (∀ i, i < n_lambdas →
      (build_lambdas X y omega size_groups g_start n_lambdas delta tau).1.getD i 0
        = (sgl_norms X y omega size_groups g_start tau).getD
            (argmaxIdx (sgl_norms X y omega size_groups g_start tau)) 0
          * (10 : ℝ) ^ (-delta * (i : ℝ) / ((n_lambdas : ℝ) - 1))) ∧
    (∀ i j, i < j → j < n_lambdas →
      (build_lambdas X y omega size_groups g_start n_lambdas delta tau).1.getD j 0
        < (build_lambdas X y omega size_groups g_start n_lambdas delta tau).1.getD i 0) ∧
    (argmaxIdx (sgl_norms X y omega size_groups g_start tau) < size_groups.length ∧
      ∀ g, g < size_groups.length →
        (sgl_norms X y omega size_groups g_start tau).getD g 0
          ≤ (sgl_norms X y omega size_groups g_start tau).getD
              (argmaxIdx (sgl_norms X y omega size_groups g_start tau)) 0) := by
  have hnrm_len : (sgl_norms X y omega size_groups g_start tau).length
      = size_groups.length := by
    rw [sgl_norms]
    simp
  have hnrm_ne : sgl_norms X y omega size_groups g_start tau ≠ [] := by
    intro h
    rw [h] at hnrm_len
    simp at hnrm_len
    exact hg (List.length_eq_zero.mp hnrm_len.symm)
  have hentry : ∀ i, i < n_lambdas →
      (build_lambdas X y omega size_groups g_start n_lambdas delta tau).1.getD i 0
        = (sgl_norms X y omega size_groups g_start tau).getD
            (argmaxIdx (sgl_norms X y omega size_groups g_start tau)) 0
          * (10 : ℝ) ^ (-delta * (i : ℝ) / ((n_lambdas : ℝ) - 1)) := by
    intro i hi
    rw [build_lambdas]
    exact getD_range_map _ n_lambdas i hi
  refine ⟨?_, rfl, ?_, hentry, ?_, ?_⟩
  · rw [build_lambdas]; simp
  · intro hn
    rw [hentry 0 hn]
    norm_num
  · intro i j hij hj
    rw [hentry i (lt_trans hij hj), hentry j hj]
    have hn1 : (0 : ℝ) < (n_lambdas : ℝ) - 1 := by
      have : 2 ≤ n_lambdas := by omega
      have h2 : (2 : ℝ) ≤ (n_lambdas : ℝ) := by exact_mod_cast this
      linarith
    have hexp : -delta * (j : ℝ) / ((n_lambdas : ℝ) - 1)
        < -delta * (i : ℝ) / ((n_lambdas : ℝ) - 1) := by
      apply (div_lt_div_iff_of_pos_right hn1).mpr
      have hcast : (i : ℝ) < (j : ℝ) := by exact_mod_cast hij
      nlinarith
    have hpow : (10 : ℝ) ^ (-delta * (j : ℝ) / ((n_lambdas : ℝ) - 1))
        < (10 : ℝ) ^ (-delta * (i : ℝ) / ((n_lambdas : ℝ) - 1)) :=
      (Real.rpow_lt_rpow_left_iff (by norm_num)).mpr hexp
    exact mul_lt_mul_of_pos_left hpow hmax
  · constructor
    · have := argmaxIdx_lt_length _ hnrm_ne
      rwa [hnrm_len] at this
    · intro g hgl
      rw [argmaxIdx_getD _ hnrm_ne]
      apply listMax_ge
      have hgl' : g < (sgl_norms X y omega size_groups g_start tau).length := by
        rwa [hnrm_len]
      rw [List.getD_eq_getElem?_getD, List.getElem?_eq_getElem hgl']
      simp [List.getElem_mem]

/-- C2 counterexample: with the single group partitioning the one feature of
`X = [[1]]` but `y = 0`, every per-group norm is `0`, so the returned grid is
`[0, 0]` — not strictly decreasing although the groups partition the features. -/
theorem build_lambdas_claim_counterexample :
    isPartition [1] [0] ([[(1 : ℝ)]]).length ∧
    (build_lambdas [[1]] [0] [1] [1] [0] 2 3 (1/2)).1.length = 2 ∧
    ¬((build_lambdas [[1]] [0] [1] [1] [0] 2 3 (1/2)).1.getD 1 0
        < (build_lambdas [[1]] [0] [1] [1] [0] 2 3 (1/2)).1.getD 0 0) := by
  refine ⟨⟨by simp, ?_, by simp⟩, ?_, ?_⟩
  · intro i hi
    simp only [List.length_singleton] at hi
    have hi0 : i = 0 := Nat.lt_one_iff.mp hi
    subst hi0
    simp
  · rw [build_lambdas]; simp
  · have hz : sgl_norms [[1]] [0] [1] [1] [0] (1/2) = [0] := by
      rw [sgl_norms]
      norm_num [epsilon_norm, dotList, normInf, List.filter, List.range_succ]
    rw [build_lambdas, hz]
    norm_num [argmaxIdx, List.range_succ]

lemma sgl_norms_unit_eval : sgl_norms [[1]] [1] [1] [1] [0] (1/2) = [1] := by
  rw [sgl_norms]
  norm_num [dotList, List.range_succ]
  exact eps_norm_eval_one

/-- C2 witness: the amended grid specification applied to the one-group dataset
`X = [[1]]`, `y = [1]` with `n_lambdas = 2`, `delta = 1`, `tau = 1/2`, whose
maximal penalty is `1 > 0`. -/
theorem build_lambdas_spec_witness :
    (build_lambdas [[1]] [1] [1] [1] [0] 2 1 (1/2)).1.length = 2 ∧
    (build_lambdas [[1]] [1] [1] [1] [0] 2 1 (1/2)).2
      = argmaxIdx (sgl_norms [[1]] [1] [1] [1] [0] (1/2)) ∧
    (0 < 2 →
      (build_lambdas [[1]] [1] [1] [1] [0] 2 1 (1/2)).1.getD 0 0
        = (sgl_norms [[1]] [1] [1] [1] [0] (1/2)).getD
            (argmaxIdx (sgl_norms [[1]] [1] [1] [1] [0] (1/2))) 0) ∧
    (∀ i, i < 2 →
      (build_lambdas [[1]] [1] [1] [1] [0] 2 1 (1/2)).1.getD i 0
        = (sgl_norms [[1]] [1] [1] [1] [0] (1/2)).getD
            (argmaxIdx (sgl_norms [[1]] [1] [1] [1] [0] (1/2))) 0
          * (10 : ℝ) ^ (-(1 : ℝ) * (i : ℝ) / (((2 : ℕ) : ℝ) - 1))) ∧
    (∀ i j, i < j → j < 2 →
      (build_lambdas [[1]] [1] [1] [1] [0] 2 1 (1/2)).1.getD j 0
        < (build_lambdas [[1]] [1] [1] [1] [0] 2 1 (1/2)).1.getD i 0) ∧
    (argmaxIdx (sgl_norms [[1]] [1] [1] [1] [0] (1/2)) < ([1] : List ℕ).length ∧
      ∀ g, g < ([1] : List ℕ).length →
        (sgl_norms [[1]] [1] [1] [1] [0] (1/2)).getD g 0
          ≤ (sgl_norms [[1]] [1] [1] [1] [0] (1/2)).getD
              (argmaxIdx (sgl_norms [[1]] [1] [1] [1] [0] (1/2))) 0) :=
  build_lambdas_spec [[1]] [1] [1] [1] [0] 2 1 (1/2)
    (by
      refine ⟨by simp, ?_, by simp⟩
      intro i hi
      simp only [List.length_singleton] at hi
      have hi0 : i = 0 := Nat.lt_one_iff.mp hi
      subst hi0
      simp)
    (by simp) (by norm_num) (by norm_num)
    (by rw [sgl_norms_unit_eval]; norm_num [argmaxIdx])

lemma getD_set_ne {α : Type} (l : List α) (u t : ℕ) (v d : α) (h : u ≠ t) :
    (l.set u v).getD t d = l.getD t d := by
  rw [List.getD_eq_getElem?_getD, List.getD_eq_getElem?_getD, List.getElem?_set_ne h]

lemma getD_set_self {α : Type} (l : List α) (t : ℕ) (v d : α) (h : t < l.length) :
    (l.set t v).getD t d = v := by
  rw [List.getD_eq_getElem?_getD, List.getElem?_set_eq_of_lt v h]
  rfl

lemma pathStep_s1_arrays (K : Kernel) (lams : List ℝ) (tol : ℝ) (nf : ℕ)
    (g s : Bool) (u : ℕ) (ps : PathState) :
    ∃ s1 : PathState, pathStep K lams tol nf g s u ps =
      (let kr := K s1.st s1.p_obj s1.norm1_beta (lams.getD u 0) tol s1.dual_scale 0
       { s1 with st := kr.1, p_obj := kr.2.p_obj, norm1_beta := kr.2.norm1_beta,
                 dual_scale := kr.2.dual_scale,
                 gaps := s1.gaps.set u kr.2.gap,
                 n_iters := s1.n_iters.set u kr.2.n_iters,
                 n_active_features := s1.n_active_features.set u kr.2.n_active_features,
                 betas := s1.betas.set u kr.1.beta }) ∧
      s1.betas = ps.betas ∧ s1.gaps = ps.gaps ∧ s1.n_iters = ps.n_iters ∧
      s1.n_active_features = ps.n_active_features := by
  rw [pathStep]
  by_cases hc : (s = true ∨ g = true) ∧ u ≠ 0
  · rw [if_pos hc]
    by_cases hrun : (if g = true then
        decide (ps.n_active_features.getD u 0 < (nf : ℝ)) else ps.run_active_warm_start) = true
    · rw [if_pos hrun]
      exact ⟨_, rfl, rfl, rfl, rfl, rfl⟩
    · rw [if_neg hrun]
      exact ⟨_, rfl, rfl, rfl, rfl, rfl⟩
  · rw [if_neg hc]
    exact ⟨_, rfl, rfl, rfl, rfl, rfl⟩

lemma pathStep_getD_ne (K : Kernel) (lams : List ℝ) (tol : ℝ) (nf : ℕ)
    (g s : Bool) (u t : ℕ) (ps : PathState) (h : u ≠ t) :
    (pathStep K lams tol nf g s u ps).betas.getD t []
        = ps.betas.getD t [] ∧
    (pathStep K lams tol nf g s u ps).gaps.getD t 0 = ps.gaps.getD t 0 ∧
    (pathStep K lams tol nf g s u ps).n_iters.getD t 0 = ps.n_iters.getD t 0 ∧
    (pathStep K lams tol nf g s u ps).n_active_features.getD t 0
        = ps.n_active_features.getD t 0 := by
  obtain ⟨s1, heq, hb, hg2, hi, ha⟩ := pathStep_s1_arrays K lams tol nf g s u ps
  rw [heq]
  exact ⟨by simp only []; rw [getD_set_ne _ _ _ _ _ h, hb],
         by simp only []; rw [getD_set_ne _ _ _ _ _ h, hg2],
         by simp only []; rw [getD_set_ne _ _ _ _ _ h, hi],
         by simp only []; rw [getD_set_ne _ _ _ _ _ h, ha]⟩

lemma pathStep_lengths (K : Kernel) (lams : List ℝ) (tol : ℝ) (nf : ℕ)
    (g s : Bool) (u : ℕ) (ps : PathState) :
    (pathStep K lams tol nf g s u ps).betas.length = ps.betas.length ∧
    (pathStep K lams tol nf g s u ps).gaps.length = ps.gaps.length ∧
    (pathStep K lams tol nf g s u ps).n_iters.length = ps.n_iters.length ∧
    (pathStep K lams tol nf g s u ps).n_active_features.length
      = ps.n_active_features.length := by
  obtain ⟨s1, heq, hb, hg2, hi, ha⟩ := pathStep_s1_arrays K lams tol nf g s u ps
  rw [heq]
  refine ⟨?_, ?_, ?_, ?_⟩ <;> simp only [] <;>
    rw [List.length_set] <;> [rw [hb]; rw [hg2]; rw [hi]; rw [ha]]

lemma pathLoop_lengths (K : Kernel) (lams : List ℝ) (tol : ℝ) (nf : ℕ)
    (g s : Bool) (s0 : PathState) :
    ∀ n, (pathLoop K lams tol nf g s n s0).betas.length = s0.betas.length ∧
      (pathLoop K lams tol nf g s n s0).gaps.length = s0.gaps.length ∧
      (pathLoop K lams tol nf g s n s0).n_iters.length = s0.n_iters.length ∧
      (pathLoop K lams tol nf g s n s0).n_active_features.length
        = s0.n_active_features.length := by
  intro n
  induction n with
  | zero => exact ⟨rfl, rfl, rfl, rfl⟩
  | succ n ih =>
    have hs := pathStep_lengths K lams tol nf g s n
      (pathLoop K lams tol nf g s n s0)
    rw [pathLoop]
    exact ⟨hs.1.trans ih.1, hs.2.1.trans ih.2.1, hs.2.2.1.trans ih.2.2.1,
      hs.2.2.2.trans ih.2.2.2⟩

lemma pathLoop_getD_stable (K : Kernel) (lams : List ℝ) (tol : ℝ) (nf : ℕ)
    (g s : Bool) (s0 : PathState) (t : ℕ) :
    ∀ n, t < n →
      (pathLoop K lams tol nf g s n s0).betas.getD t []
        = (pathLoop K lams tol nf g s (t + 1) s0).betas.getD t [] ∧
      (pathLoop K lams tol nf g s n s0).gaps.getD t 0
        = (pathLoop K lams tol nf g s (t + 1) s0).gaps.getD t 0 ∧
      (pathLoop K lams tol nf g s n s0).n_iters.getD t 0
        = (pathLoop K lams tol nf g s (t + 1) s0).n_iters.getD t 0 ∧
      (pathLoop K lams tol nf g s n s0).n_active_features.getD t 0
        = (pathLoop K lams tol nf g s (t + 1) s0).n_active_features.getD t 0 := by
  intro n
  induction n with
  | zero => intro h; cases h
  | succ n ih =>
    intro h
    rcases Nat.lt_or_ge t n with hlt | hge
    · have hstep := pathStep_getD_ne K lams tol nf g s n t
        (pathLoop K lams tol nf g s n s0) (by omega)
      have hprev := ih hlt
      rw [pathLoop]
      exact ⟨hstep.1.trans hprev.1, hstep.2.1.trans hprev.2.1,
        hstep.2.2.1.trans hprev.2.2.1, hstep.2.2.2.trans hprev.2.2.2⟩
    · have ht : n = t := by omega
      subst ht
      exact ⟨rfl, rfl, rfl, rfl⟩

lemma pathStep_records (K : Kernel) (lams : List ℝ) (tol : ℝ) (nf : ℕ)
    (g s : Bool) (t : ℕ) (ps : PathState) (hb : t < ps.betas.length) :
    (pathStep K lams tol nf g s t ps).betas.getD t []
      = (pathStep K lams tol nf g s t ps).st.beta := by
  obtain ⟨s1, heq, hb1, _, _, _⟩ := pathStep_s1_arrays K lams tol nf g s t ps
  rw [heq]
  simp only []
  rw [getD_set_self]
  rw [hb1]
  exact hb

/-- C8 (confirmed): the per-penalty records of `logreg_path` are written once and
never touched again: after step `t` of the path loop, row `t` of the coefficient
matrix is exactly the iterate's coefficient vector at that moment, and the row
and the gap, iteration-count and active-feature-count entries recorded at index
`t` are unchanged by every later step (`n > t` applications of the loop give the
same entries at `t` as `t + 1` applications). -/
theorem path_result_frame (K : Kernel) (lams : List ℝ) (tol : ℝ) (nf : ℕ)
    (g s : Bool) (s0 : PathState) (t n : ℕ) (htn : t < n)
    (hb : t < s0.betas.length) :
    (pathLoop K lams tol nf g s (t + 1) s0).betas.getD t []
      = (pathLoop K lams tol nf g s (t + 1) s0).st.beta ∧
    (pathLoop K lams tol nf g s n s0).betas.getD t []
      = (pathLoop K lams tol nf g s (t + 1) s0).betas.getD t [] ∧
    (pathLoop K lams tol nf g s n s0).gaps.getD t 0
      = (pathLoop K lams tol nf g s (t + 1) s0).gaps.getD t 0 ∧
    (pathLoop K lams tol nf g s n s0).n_iters.getD t 0
      = (pathLoop K lams tol nf g s (t + 1) s0).n_iters.getD t 0 ∧
    (pathLoop K lams tol nf g s n s0).n_active_features.getD t 0
      = (pathLoop K lams tol nf g s (t + 1) s0).n_active_features.getD t 0 := by
  have hst := pathLoop_getD_stable K lams tol nf g s s0 t n htn
  have hlen := (pathLoop_lengths K lams tol nf g s s0 t).1
  have hrec : (pathLoop K lams tol nf g s (t + 1) s0).betas.getD t []
      = (pathLoop K lams tol nf g s (t + 1) s0).st.beta := by
    rw [pathLoop]
    exact pathStep_records K lams tol nf g s t _ (by rw [hlen]; exact hb)
  exact ⟨hrec, hst.1, hst.2.1, hst.2.2.1, hst.2.2.2⟩

/-- C8 witness: the frame property applied to a concrete two-penalty state with
the identity kernel, `t = 0`, `n = 2`. -/
theorem path_result_frame_witness :
    (pathLoop kernelId [1, 1] 0 1 false false (0 + 1)
        ⟨⟨[], [], [], [], [], [], []⟩, 0, 0, 0, true, [[], []], [0, 0], [0, 0], [0, 0]⟩).betas.getD 0 []
      = (pathLoop kernelId [1, 1] 0 1 false false (0 + 1)
        ⟨⟨[], [], [], [], [], [], []⟩, 0, 0, 0, true, [[], []], [0, 0], [0, 0], [0, 0]⟩).st.beta ∧
    (pathLoop kernelId [1, 1] 0 1 false false 2
        ⟨⟨[], [], [], [], [], [], []⟩, 0, 0, 0, true, [[], []], [0, 0], [0, 0], [0, 0]⟩).betas.getD 0 []
      = (pathLoop kernelId [1, 1] 0 1 false false (0 + 1)
        ⟨⟨[], [], [], [], [], [], []⟩, 0, 0, 0, true, [[], []], [0, 0], [0, 0], [0, 0]⟩).betas.getD 0 [] ∧
    (pathLoop kernelId [1, 1] 0 1 false false 2
        ⟨⟨[], [], [], [], [], [], []⟩, 0, 0, 0, true, [[], []], [0, 0], [0, 0], [0, 0]⟩).gaps.getD 0 0
      = (pathLoop kernelId [1, 1] 0 1 false false (0 + 1)
        ⟨⟨[], [], [], [], [], [], []⟩, 0, 0, 0, true, [[], []], [0, 0], [0, 0], [0, 0]⟩).gaps.getD 0 0 ∧
    (pathLoop kernelId [1, 1] 0 1 false false 2
        ⟨⟨[], [], [], [], [], [], []⟩, 0, 0, 0, true, [[], []], [0, 0], [0, 0], [0, 0]⟩).n_iters.getD 0 0
      = (pathLoop kernelId [1, 1] 0 1 false false (0 + 1)
        ⟨⟨[], [], [], [], [], [], []⟩, 0, 0, 0, true, [[], []], [0, 0], [0, 0], [0, 0]⟩).n_iters.getD 0 0 ∧
    (pathLoop kernelId [1, 1] 0 1 false false 2
        ⟨⟨[], [], [], [], [], [], []⟩, 0, 0, 0, true, [[], []], [0, 0], [0, 0], [0, 0]⟩).n_active_features.getD 0 0
      = (pathLoop kernelId [1, 1] 0 1 false false (0 + 1)
        ⟨⟨[], [], [], [], [], [], []⟩, 0, 0, 0, true, [[], []], [0, 0], [0, 0], [0, 0]⟩).n_active_features.getD 0 0 :=
  path_result_frame kernelId [1, 1] 0 1 false false
    ⟨⟨[], [], [], [], [], [], []⟩, 0, 0, 0, true, [[], []], [0, 0], [0, 0], [0, 0]⟩ 0 2
    (by norm_num) (by simp)

/-- C7 (confirmed): with the strong warm-start flag, the mask computed for the
warm-start solve at a non-first penalty marks feature `j` disabled (flag `1`)
exactly when `|XTR_j| < 2·lambda_t - lambda_{t-1}`; `pathStep` passes this
`warm_disabled` mask, built from the current gradient, to the kernel. -/
theorem strong_warm_start_mask (XTR : List ℝ) (disabled : List ℤ)
    (lam_t lam_tm1 : ℝ) (j : ℕ) (hj : j < XTR.length) :
    ((warm_disabled true XTR disabled (2 * lam_t - lam_tm1)).getD j 0 = 1
      ↔ |XTR.getD j 0| < 2 * lam_t - lam_tm1) := by
  unfold warm_disabled strong_mask
  rw [if_pos rfl]
  rw [List.getD_eq_getElem?_getD, List.getD_eq_getElem?_getD, List.getElem?_map,
    List.getElem?_eq_getElem hj]
  simp only [Option.map_some', Option.getD_some]
  split_ifs with h
  · simp [h]
  · simp [h]

/-- C7 witness: the strong-elimination mask at `XTR = [3]`, `lambda_t = 2`,
`lambda_{t-1} = 1`: the threshold is `3`, `|3| < 3` fails and the flag is `0`. -/
theorem strong_warm_start_mask_witness :
    ((warm_disabled true [3] [] (2 * 2 - 1)).getD 0 0 = 1
      ↔ |([3] : List ℝ).getD 0 0| < 2 * 2 - 1) :=
  strong_warm_start_mask [3] [] 2 1 0 (by norm_num)

/-- C9 (confirmed): the mask handed to the warm-start solve is the previous
mask unchanged when the strong flag is off (gap-only mode never resets it; the
vector is whatever the previous definitive kernel call left in place), and is
recomputed in full from the current gradient — independently of the previous
mask — when the strong flag is on. -/
theorem warm_start_mask_policy (XTR : List ℝ) (d d' : List ℤ) (thr : ℝ) :
    warm_disabled false XTR d thr = d ∧
    warm_disabled true XTR d thr = strong_mask XTR thr ∧
    warm_disabled true XTR d thr = warm_disabled true XTR d' thr ∧
    ∀ st : CDState,
      { st with disabled_features := warm_disabled false st.XTR st.disabled_features thr } = st :=
  ⟨rfl, rfl, rfl, fun st => by cases st; rfl⟩

/-- C10 (confirmed): a non-ndarray `lambdas` argument — a scalar or a Python
list, even one holding several penalty values — is wrapped as
`np.array([lambdas])`, an object of length `1`, so the path loop performs
exactly one step; an ndarray grid keeps its own length. -/
theorem lambdas_wrap_non_ndarray (l : List ℝ) (v : ℝ) :
    lambdas_wrap (NpValue.pylist l) = [Sum.inr l] ∧
    logreg_path_n_steps (NpValue.pylist l) = 1 ∧
    logreg_path_n_steps (NpValue.pyscalar v) = 1 ∧
    logreg_path_n_steps (NpValue.ndarray l) = l.length := by
  refine ⟨rfl, rfl, rfl, ?_⟩
  simp [logreg_path_n_steps, lambdas_wrap]

/-- C4 counterexample: on the empty penalty grid the driver raises
(`dual_scale = lambdas[0]` is an `IndexError`, `none` in the embedding) instead
of returning an empty result. -/
theorem logreg_path_empty_counterexample :
    logreg_path kernelId [[1]] [1] [] 1 none false false = none := rfl

/-- C4 (amended): `logreg_path` on an empty penalty grid always raises an
`IndexError` at `dual_scale = lambdas[0]` (the `none` of the embedding) — for
every kernel, dataset, tolerance, initial coefficients and warm-start flags —
rather than returning an empty result. -/
theorem logreg_path_empty_grid (K : Kernel) (X : List (List ℝ)) (y : List ℝ)
    (eps : ℝ) (beta_init : Option (List ℝ)) (g s : Bool) :
    logreg_path K X y [] eps beta_init g s = none := rfl

/-- C3 (code bug): two penalties `[1, 1]`, one feature, `gap_active_warm_start`
on, `strong` off, and a kernel that always reports `n_active_features = 1 =
n_features` and appends the received `wstr_plus` flag to the coefficient buffer.
The definitive solve at `t = 0` records `n_active_features[0] = 1 = n_features`,
so by the claim the restricted warm-start solve at `t = 1` must be skipped; the
code instead tests the yet-unwritten entry `n_active_features[1]` (still its
initialization value `0`) against `n_features`, so the restricted solve runs:
row `1` of the returned coefficients is `[0, 0, 1, 0]`, carrying the
`wstr_plus = 1` marker of the restricted call. -/
theorem gap_warm_start_runs_despite_full_active_set :
    logreg_path kernelTrace [[1]] [1] [1, 1] 1 none true false
      = some ([[0, 0], [0, 0, 1, 0]], [0, 0], [0, 0], [1, 1]) := by
  norm_num [logreg_path, path_init, pathLoop, pathStep, kernelTrace, warm_disabled, dotList,
    List.head?, List.replicate, List.set, List.getD]
